import Mathlib

/-! gubernator_search: the recursive crawl of `main.go`.

A shallow embedding of `src/main.go` and the properties of its crawl.

* A Go `string` is a sequence of bytes.  It is represented by a Lean `String`;
  the program only ever compares symbols for equality (`==`,
  `strings.Contains`, `strings.HasSuffix`), so a character stands for a byte.
* An `*html.Node` is a tree: the `FirstChild`/`NextSibling` chain of a node is
  the list `children`, in sibling order.
* The two fetchers `getUrlHtml` and `getUrlText` talk to the network; they are
  parameters of the crawl (`Fetchers`), arbitrary functions from a location to
  a result or an error.
* `findFiles` writes to standard output and calls the fetchers; both effects
  are recorded, in order, in a trace of `Event`s.  The recursion of
  `findFiles` need not terminate, so the embedding is indexed by fuel (the
  depth of recursion still allowed) and a run says whether it returned.
-/

namespace GubernatorSearch

/-! ## Strings -/

/-- `isInfixOfB sub s`: the list `sub` occurs in `s` as a contiguous block. -/
def isInfixOfB : List Char → List Char → Bool
  | sub, [] => sub.isEmpty
  | sub, c :: cs => sub.isPrefixOf (c :: cs) || isInfixOfB sub cs

/-- Go `strings.Contains(s, substr)`: reports whether `substr` is within `s`. -/
def Contains (s substr : String) : Bool :=
  isInfixOfB substr.data s.data

/-- Go `strings.HasSuffix(s, suffix)`: tests whether `s` ends with `suffix`. -/
def HasSuffix (s suffix : String) : Bool :=
  suffix.data.isSuffixOf s.data

/-! ## The document tree of `golang.org/x/net/html` -/

/-- The `html.NodeType` constants. -/
inductive NodeType
  | ErrorNode
  | TextNode
  | DocumentNode
  | ElementNode
  | CommentNode
  | DoctypeNode
  | RawNode
  deriving DecidableEq, Repr

/-- The struct `html.Attribute`. -/
structure Attribute where
  Namespace : String
  Key : String
  Val : String
  deriving DecidableEq, Repr

/-- The struct `html.Node`, as a tree: `NodeTy` is the field `Type`, `children`
is the chain `FirstChild`, `FirstChild.NextSibling`, ... -/
inductive Node
  | mk (NodeTy : NodeType) (Data : String) (Attr : List Attribute) (children : List Node)

/-- Field `Type` of a node. -/
def Node.NodeTy : Node → NodeType
  | .mk ty _ _ _ => ty

/-- Field `Attr` of a node. -/
def Node.Attr : Node → List Attribute
  | .mk _ _ attr _ => attr

/-- The children of a node, first child first. -/
def Node.children : Node → List Node
  | .mk _ _ _ cs => cs

/-- The type `htmlFilter` of `main.go`: a function which returns true if the
value of the html attribute should be included. -/
abbrev htmlFilter := Attribute → Bool

/-! ## The link extractor -/

/-- The attribute loop of `getElementsFromHtml`,
`for _, a := range n.Attr { if filter(a) { output = append(output, a.Val); break } }`,
run on the attributes still to visit and the `output` so far. -/
def attrLoop (filter : htmlFilter) : List Attribute → List String → List String
  | [], output => output
  | a :: rest, output =>
    if filter a then output ++ [a.Val] else attrLoop filter rest output

mutual
/-- `getElementsFromHtml` of `main.go`: recursively searches the DOM to find
attributes for which filter returns true. -/
def getElementsFromHtml : Node → htmlFilter → List String
  | .mk ty _ attr children, filter =>
    let output : List String := []
    let output := if ty = NodeType.ElementNode then attrLoop filter attr output else output
    childLoop children filter output
/-- The child loop of `getElementsFromHtml`,
`for c := n.FirstChild; c != nil; c = c.NextSibling { output = append(output, getElementsFromHtml(c, filter)...) }`,
run on the children still to visit and the `output` so far. -/
def childLoop : List Node → htmlFilter → List String → List String
  | [], _, output => output
  | c :: cs, filter, output => childLoop cs filter (output ++ getElementsFromHtml c filter)
end

/-- `getSubURLsFromHtml` of `main.go`: all links in the document which contain
the provided url (and no `?`). -/
def getSubURLsFromHtml (document : Node) (url : String) : List String :=
  getElementsFromHtml document fun a =>
    a.Key == "href" && Contains a.Val url && !Contains a.Val "?"

/-- `getFilesFromHtml` of `main.go`: all files matching fileName in the
document. -/
def getFilesFromHtml (document : Node) (fileName : String) : List String :=
  getElementsFromHtml document fun a =>
    a.Key == "href" && HasSuffix a.Val fileName

/-- An `<a href=...>` element with no children. -/
def anchor (href : String) : Node :=
  .mk .ElementNode "a" [⟨"", "href", href⟩] []

/-- A listing page: a document node over `html`, `head`, `body` and one anchor
per hyperlink. -/
def listing (hrefs : List String) : Node :=
  .mk .DocumentNode "" []
    [.mk .ElementNode "html" []
      [.mk .ElementNode "head" [] [],
       .mk .ElementNode "body" [] (hrefs.map anchor)]]

/-! ## Pre-order of a document (specification side) -/

mutual
/-- The nodes of a document in pre-order: a node before its children, the
children left to right. -/
def preorder : Node → List Node
  | .mk ty d attr cs => .mk ty d attr cs :: preorderList cs
/-- The pre-order of a list of sibling subtrees, left to right. -/
def preorderList : List Node → List Node
  | [] => []
  | c :: cs => preorder c ++ preorderList cs
end

/-- The element nodes of a document, in pre-order. -/
def elementNodes (d : Node) : List Node :=
  (preorder d).filter fun n => n.NodeTy = NodeType.ElementNode

/-- The attributes of the element nodes of a document, in pre-order, those of
one element in the order of its attribute list. -/
def elementAttrs (d : Node) : List Attribute :=
  (elementNodes d).flatMap Node.Attr

/-- What one node gives to the output of the link extractor: for an element
node the value of its first attribute that passes the filter, if it has one;
nothing for any other node. -/
def contribution (filter : htmlFilter) (n : Node) : Option String :=
  if n.NodeTy = NodeType.ElementNode then (n.Attr.find? filter).map Attribute.Val else none

/-- The attribute is a hyperlink target: its key is `href`. -/
def isHref (a : Attribute) : Bool := a.Key == "href"

/-- The hyperlink targets of a document: the values of the `href` attributes
of its element nodes, in document order. -/
def hrefs (d : Node) : List String :=
  ((elementAttrs d).filter isHref).map Attribute.Val

/-- The values of the attributes passing `filter`, over the element nodes of a
list of nodes. -/
def passing (filter : htmlFilter) (l : List Node) : List String :=
  (((l.filter fun n => n.NodeTy = NodeType.ElementNode).flatMap Node.Attr).filter filter).map
    Attribute.Val

/-- An element with two `href` attributes. -/
def twoHrefs : Node :=
  .mk .ElementNode "a" [⟨"", "href", "/a/b"⟩, ⟨"", "href", "/a/c"⟩] []

/-- The listing of the scenario: three hyperlinks under `/logs/`. -/
def scenarioListing : Node :=
  listing ["/logs/run1/", "/logs/serial-1.log?foo=1", "/logs/run2/serial-1.log"]

/-! ## The crawl -/

/-- The constant `gcsUrl`. -/
def gcsUrl : String := "http://gcsweb.k8s.io/"

/-- The two network functions of `main.go`, `getUrlHtml` and `getUrlText`:
each maps the url it is called with to its result or to its error. -/
structure Fetchers where
  getUrlHtml : String → Except String Node
  getUrlText : String → Except String String

/-- What `findFiles` does that can be seen from outside, in order. -/
inductive Event
  /-- The call `getUrlHtml(url)`. -/
  | getHtml (url : String)
  /-- The call `getUrlText(url)`. -/
  | getText (url : String)
  /-- The line `fmt.Printf("error getting URL html: %s\n", err)`. -/
  | htmlError (err : String)
  /-- The line `fmt.Printf("error getting URL text: %s\n", err)`. -/
  | textError (err : String)
  /-- The line `fmt.Println(file)`: `file` is printed as a match. -/
  | println (file : String)
  deriving DecidableEq, Repr

/-- A run of `findFiles`: the events so far, and whether the call returned
(`false`: the fuel ran out before it did). -/
structure Run where
  trace : List Event
  returned : Bool
  deriving DecidableEq, Repr

/-- The loop `for _, subDir := range subDirs { findFiles(subDir, ...) }`, the
recursive call given as `call`: the calls run one after the other, and the
loop stops where a call does not return. -/
def subDirLoop (call : String → Run) : List String → Run
  | [] => ⟨[], true⟩
  | subDir :: rest =>
    let r := call subDir
    if r.returned then
      let r' := subDirLoop call rest
      ⟨r.trace ++ r'.trace, r'.returned⟩
    else r

/-- `findFiles` of `main.go`, with `fuel` levels of recursion allowed.  The
body of the loop over `getFilesFromHtml(doc, fileName)` ends in `return`, so
the loop runs its body on the first file and the function returns; the loop
over the sub-directories is reached when there is no file. -/
def findFiles (net : Fetchers) : Nat → String → String → String → Run
  | 0, _, _, _ => ⟨[], false⟩
  | fuel + 1, url, fileName, textPattern =>
    match net.getUrlHtml (gcsUrl ++ url) with
    | .error err => ⟨[.getHtml (gcsUrl ++ url), .htmlError err], true⟩
    | .ok doc =>
      match getFilesFromHtml doc fileName with
      | file :: _ =>
        match net.getUrlText file with
        | .error err =>
          ⟨[.getHtml (gcsUrl ++ url), .getText file, .textError err], true⟩
        | .ok text =>
          if Contains text textPattern then
            ⟨[.getHtml (gcsUrl ++ url), .getText file, .println file], true⟩
          else
            ⟨[.getHtml (gcsUrl ++ url), .getText file], true⟩
      | [] =>
        let r := subDirLoop (fun subDir => findFiles net fuel subDir fileName textPattern)
          (getSubURLsFromHtml doc url)
        ⟨.getHtml (gcsUrl ++ url) :: r.trace, r.returned⟩

/-- The network of the scenario: the listing of `/logs/` is `scenarioListing`,
the file `/logs/run2/serial-1.log` holds a soft-lockup line, and every other
request fails. -/
def scenarioNet : Fetchers where
  getUrlHtml u :=
    if u = gcsUrl ++ "/logs/" then .ok scenarioListing else .error "404 Not Found"
  getUrlText u :=
    if u = "/logs/run2/serial-1.log" then .ok "watchdog: BUG: soft lockup - CPU#0"
    else .error "404 Not Found"

/-- A network on which every request fails. -/
def downNet : Fetchers where
  getUrlHtml _ := .error "connection refused"
  getUrlText _ := .error "connection refused"

/-- The listing of `/d/` on `twoFilesNet` and `failingFileNet`: two file-link
candidates and a sub-directory. -/
def rootListing : Node :=
  listing ["/d/serial-1.log", "/d/copy/serial-1.log", "/d/sub/"]

/-- A network with two matching files in the listing of `/d/` and a third one
in its sub-directory `/d/sub/`; every file holds a soft-lockup line. -/
def twoFilesNet : Fetchers where
  getUrlHtml u :=
    if u = gcsUrl ++ "/d/" then .ok rootListing
    else if u = gcsUrl ++ "/d/sub/" then .ok (listing ["/d/sub/serial-1.log"])
    else .error "404 Not Found"
  getUrlText _ := .ok "watchdog: BUG: soft lockup - CPU#0"

/-- The network `twoFilesNet`, except that fetching the first candidate,
`/d/serial-1.log`, fails. -/
def failingFileNet : Fetchers where
  getUrlHtml := twoFilesNet.getUrlHtml
  getUrlText u :=
    if u = "/d/serial-1.log" then .error "i/o timeout"
    else .ok "watchdog: BUG: soft lockup - CPU#0"

/-- The network `twoFilesNet`, except that the first candidate holds no match
and fetching the second candidate, `/d/copy/serial-1.log`, fails. -/
def secondFileFailsNet : Fetchers where
  getUrlHtml := twoFilesNet.getUrlHtml
  getUrlText u :=
    if u = "/d/serial-1.log" then .ok "Linux version 4.4.0"
    else if u = "/d/copy/serial-1.log" then .error "i/o timeout"
    else .ok "watchdog: BUG: soft lockup - CPU#0"

/-- A listing service with two levels: the listing of `/t/` has the
sub-directories `/t/a/` and `/t/b/` and no file, the listing of `/t/a/` has the
file `/t/a/serial-1.log`, fetching the listing of `/t/b/` fails, and every
file holds a soft-lockup line. -/
def treeNet : Fetchers where
  getUrlHtml u :=
    if u = gcsUrl ++ "/t/" then .ok (listing ["/t/a/", "/t/b/"])
    else if u = gcsUrl ++ "/t/a/" then .ok (listing ["/t/a/serial-1.log"])
    else .error "404 Not Found"
  getUrlText _ := .ok "watchdog: BUG: soft lockup - CPU#0"

/-- A listing service whose every page links to `/loop/`. -/
def loopNet : Fetchers where
  getUrlHtml _ := .ok (listing ["/loop/"])
  getUrlText _ := .error "404 Not Found"

/-- The sub-directory link relation of a listing service: the listing fetched
for `u` has the sub-directory link `v`. -/
def subDirLink (net : Fetchers) (u v : String) : Prop :=
  ∃ doc, net.getUrlHtml (gcsUrl ++ u) = .ok doc ∧ v ∈ getSubURLsFromHtml doc u

/-- The locations printed as a match in a trace, in order. -/
def printed : List Event → List String
  | [] => []
  | .println file :: rest => file :: printed rest
  | _ :: rest => printed rest

/-! ## Basic facts about strings -/

theorem isInfixOfB_iff (sub s : List Char) : isInfixOfB sub s = true ↔ sub <:+: s := by
  induction s with
  | nil =>
    cases sub <;> simp [isInfixOfB]
  | cons c cs ih =>
    rw [isInfixOfB, Bool.or_eq_true, ih, List.isPrefixOf_iff_prefix, List.infix_cons_iff]

theorem Contains_iff (s substr : String) :
    Contains s substr = true ↔ substr.data <:+: s.data :=
  isInfixOfB_iff _ _

theorem HasSuffix_iff (s suffix : String) :
    HasSuffix s suffix = true ↔ suffix.data <:+ s.data := by
  simp [HasSuffix]

theorem Contains_self (s : String) : Contains s s = true :=
  (Contains_iff s s).2 List.infix_rfl

/-! ## The link extractor: its output -/

theorem attrLoop_eq (filter : htmlFilter) (attrs : List Attribute) (output : List String) :
    attrLoop filter attrs output
      = output ++ ((attrs.find? filter).map Attribute.Val).toList := by
  induction attrs with
  | nil => simp [attrLoop]
  | cons a rest ih =>
    by_cases h : filter a = true
    · simp [attrLoop, h]
    · simp [attrLoop, h, ih]

mutual
theorem getElementsFromHtml_eq_filterMap : ∀ (n : Node) (filter : htmlFilter),
    getElementsFromHtml n filter = (preorder n).filterMap (contribution filter)
  | .mk ty d attr cs, filter => by
    rw [getElementsFromHtml, preorder, childLoop_eq cs filter]
    by_cases h : ty = NodeType.ElementNode
    · simp [h, attrLoop_eq, contribution, Node.NodeTy, Node.Attr, List.filterMap_cons]
      cases List.find? filter attr <;> simp
    · simp [h, contribution, Node.NodeTy, List.filterMap_cons]
theorem childLoop_eq : ∀ (cs : List Node) (filter : htmlFilter) (output : List String),
    childLoop cs filter output
      = output ++ (preorderList cs).filterMap (contribution filter)
  | [], _, output => by simp [childLoop, preorderList]
  | c :: cs, filter, output => by
    rw [childLoop, childLoop_eq cs filter, getElementsFromHtml_eq_filterMap c filter,
      preorderList, List.filterMap_append, List.append_assoc]
end

theorem preorderList_eq_flatMap (cs : List Node) : preorderList cs = cs.flatMap preorder := by
  induction cs with
  | nil => simp [preorderList]
  | cons c cs ih => simp [preorderList, ih]

theorem getElementsFromHtml_node (n : Node) (filter : htmlFilter) :
    getElementsFromHtml n filter
      = (contribution filter n).toList
        ++ n.children.flatMap (fun c => getElementsFromHtml c filter) := by
  have hcs : ∀ cs : List Node, (preorderList cs).filterMap (contribution filter)
      = cs.flatMap (fun c => getElementsFromHtml c filter) := by
    intro cs
    induction cs with
    | nil => simp [preorderList]
    | cons c cs ih =>
      simp [preorderList, List.filterMap_append, ih, getElementsFromHtml_eq_filterMap]
  cases n with
  | mk ty d attr cs =>
    rw [getElementsFromHtml_eq_filterMap, preorder, List.filterMap_cons, hcs]
    cases h : contribution filter (Node.mk ty d attr cs) <;> simp [Node.children]

/-- The value of the first attribute passing the filter is among, and at the
head of, the values of all attributes passing it. -/
theorem find_toList_sublist (filter : htmlFilter) (attrs : List Attribute) :
    (((attrs.find? filter).map Attribute.Val).toList).Sublist
      ((attrs.filter filter).map Attribute.Val) := by
  induction attrs with
  | nil => simp
  | cons a rest ih =>
    by_cases h : filter a = true
    · simp [List.find?_cons, List.filter_cons, h]
    · simpa [List.find?_cons, List.filter_cons, h] using ih

theorem find_toList_eq (filter : htmlFilter) (attrs : List Attribute)
    (h1 : (attrs.filter filter).length ≤ 1) :
    ((attrs.find? filter).map Attribute.Val).toList
      = (attrs.filter filter).map Attribute.Val := by
  induction attrs with
  | nil => simp
  | cons a rest ih =>
    by_cases h : filter a = true
    · simp [List.filter_cons, h] at h1
      simpa [List.find?_cons, List.filter_cons, h] using h1
    · simp [List.filter_cons, h] at h1
      simpa [List.find?_cons, List.filter_cons, h] using ih h1

theorem passing_cons (filter : htmlFilter) (n : Node) (l : List Node) :
    passing filter (n :: l)
      = (if n.NodeTy = NodeType.ElementNode then (n.Attr.filter filter).map Attribute.Val
          else []) ++ passing filter l := by
  by_cases h : n.NodeTy = NodeType.ElementNode
  · simp [passing, List.filter_cons, h]
  · simp [passing, List.filter_cons, h]

theorem filterMap_contribution_sublist (filter : htmlFilter) (l : List Node) :
    (l.filterMap (contribution filter)).Sublist (passing filter l) := by
  induction l with
  | nil => simp [passing]
  | cons n l ih =>
    rw [passing_cons]
    by_cases h : n.NodeTy = NodeType.ElementNode
    · have := (find_toList_sublist filter n.Attr).append ih
      cases hf : List.find? filter n.Attr <;>
        simpa [List.filterMap_cons, contribution, h, hf] using this
    · simpa [List.filterMap_cons, contribution, h] using ih

theorem filterMap_contribution_eq (filter : htmlFilter) (l : List Node)
    (h1 : ∀ n ∈ l, n.NodeTy = NodeType.ElementNode → (n.Attr.filter filter).length ≤ 1) :
    l.filterMap (contribution filter) = passing filter l := by
  induction l with
  | nil => simp [passing]
  | cons n l ih =>
    rw [passing_cons, ← ih (fun m hm => h1 m (List.mem_cons_of_mem _ hm))]
    by_cases h : n.NodeTy = NodeType.ElementNode
    · have := find_toList_eq filter n.Attr (h1 n (List.mem_cons_self _ _) h)
      rw [if_pos h, ← this]
      cases hf : List.find? filter n.Attr <;>
        simp [List.filterMap_cons, contribution, h, hf]
    · simp [List.filterMap_cons, contribution, h]

theorem passing_preorder (filter : htmlFilter) (d : Node) :
    passing filter (preorder d) = ((elementAttrs d).filter filter).map Attribute.Val := rfl

theorem mem_elementNodes {d n : Node} :
    n ∈ elementNodes d ↔ n ∈ preorder d ∧ n.NodeTy = NodeType.ElementNode := by
  simp [elementNodes]

/-- When each element has at most one attribute passing `filter`, the link
extractor returns the values of all attributes passing it. -/
theorem getElementsFromHtml_eq_passing (d : Node) (filter : htmlFilter)
    (h1 : ∀ n ∈ elementNodes d, (n.Attr.filter filter).length ≤ 1) :
    getElementsFromHtml d filter = ((elementAttrs d).filter filter).map Attribute.Val := by
  rw [getElementsFromHtml_eq_filterMap, ← passing_preorder]
  exact filterMap_contribution_eq filter _ fun n hn he => h1 n (mem_elementNodes.2 ⟨hn, he⟩)

/-- Every value the link extractor returns is the value of an attribute of an
element node that passes the filter. -/
theorem mem_getElementsFromHtml {d : Node} {filter : htmlFilter} {v : String}
    (hv : v ∈ getElementsFromHtml d filter) :
    ∃ a ∈ elementAttrs d, filter a = true ∧ a.Val = v := by
  rw [getElementsFromHtml_eq_filterMap] at hv
  have := (filterMap_contribution_sublist filter (preorder d)).subset hv
  rw [passing_preorder] at this
  simpa [and_assoc] using this

/-- A filter that asks for an `href` key and tests the value with `q` returns,
on a document whose elements have at most one `href` each, the hyperlink
targets that pass `q`. -/
theorem getElementsFromHtml_href (d : Node) (q : String → Bool)
    (h1 : ∀ n ∈ elementNodes d, (n.Attr.filter isHref).length ≤ 1) :
    getElementsFromHtml d (fun a => a.Key == "href" && q a.Val) = (hrefs d).filter q := by
  have hP : (fun a : Attribute => a.Key == "href" && q a.Val)
      = fun a => (q ∘ Attribute.Val) a && isHref a := by
    funext a
    simp [isHref, Bool.and_comm]
  rw [getElementsFromHtml_eq_passing, hrefs, List.filter_map, hP, ← List.filter_filter]
  intro n hn
  rw [hP, ← List.filter_filter]
  exact (List.length_filter_le _ _).trans (h1 n hn)

theorem getSubURLsFromHtml_eq (d : Node) (url : String)
    (h1 : ∀ n ∈ elementNodes d, (n.Attr.filter isHref).length ≤ 1) :
    getSubURLsFromHtml d url
      = (hrefs d).filter (fun v => Contains v url && !Contains v "?") := by
  rw [← getElementsFromHtml_href d _ h1, getSubURLsFromHtml]
  congr 1
  funext a
  rw [Bool.and_assoc]

theorem getFilesFromHtml_eq (d : Node) (fileName : String)
    (h1 : ∀ n ∈ elementNodes d, (n.Attr.filter isHref).length ≤ 1) :
    getFilesFromHtml d fileName = (hrefs d).filter (fun v => HasSuffix v fileName) := by
  rw [← getElementsFromHtml_href d _ h1, getFilesFromHtml]

/-! ## The link extractor: the claims -/

/-- What `getElementsFromHtml D P` returns: in document pre-order, the value of
the first attribute passing `P` of each element node that has one.  So the
result is a sublist (same relative order) of the values of all attributes of
element nodes passing `P`, taken in pre-order; every returned value is the
value of such an attribute; and when no element node has two attributes
passing `P`, the result is the whole of that list. -/
theorem getElementsFromHtml_preorder (D : Node) (P : htmlFilter) :
    getElementsFromHtml D P = (preorder D).filterMap (contribution P) ∧
    (getElementsFromHtml D P).Sublist (((elementAttrs D).filter P).map Attribute.Val) ∧
    (∀ v ∈ getElementsFromHtml D P, ∃ a ∈ elementAttrs D, P a = true ∧ a.Val = v) ∧
    ((∀ n ∈ elementNodes D, (n.Attr.filter P).length ≤ 1) →
      getElementsFromHtml D P = ((elementAttrs D).filter P).map Attribute.Val) := by
  refine ⟨getElementsFromHtml_eq_filterMap D P, ?_, fun v hv => mem_getElementsFromHtml hv,
    getElementsFromHtml_eq_passing D P⟩
  rw [getElementsFromHtml_eq_filterMap, ← passing_preorder]
  exact filterMap_contribution_sublist P _

/-- C3 fails on the code: the element `twoHrefs` has the attributes
`href=/a/b` and `href=/a/c`, both passing `isHref`.  The attribute loop breaks
at the first, so `getElementsFromHtml` returns `/a/b` alone, and the second
attribute, which the claim (and the doc comment of the function: the values of
all matching attributes) says contributes its value, contributes nothing. -/
theorem getElementsFromHtml_not_every_attribute :
    isHref ⟨"", "href", "/a/c"⟩ = true ∧
    (⟨"", "href", "/a/c"⟩ : Attribute) ∈ elementAttrs twoHrefs ∧
    getElementsFromHtml twoHrefs isHref = ["/a/b"] ∧
    ¬ (∀ a ∈ elementAttrs twoHrefs, isHref a = true →
        a.Val ∈ getElementsFromHtml twoHrefs isHref) := by
  decide

/-- C4: a node gives `getElementsFromHtml` at most one value of its own, then
the values of its children, left to right.  For an element node the own value
is that of the first attribute passing `P` (the attributes before it do not
pass, those after it are not looked at); any other node gives no value of its
own.  The result is no longer than the number of element nodes. -/
theorem getElementsFromHtml_first_match (D : Node) (P : htmlFilter) :
    getElementsFromHtml D P
      = (contribution P D).toList ++ D.children.flatMap (fun c => getElementsFromHtml c P) ∧
    (contribution P D).toList.length ≤ 1 ∧
    (∀ v, contribution P D = some v ↔
      D.NodeTy = NodeType.ElementNode ∧
      ∃ before a after, D.Attr = before ++ a :: after ∧
        (∀ b ∈ before, P b = false) ∧ P a = true ∧ a.Val = v) ∧
    (D.NodeTy ≠ NodeType.ElementNode → contribution P D = none) ∧
    (getElementsFromHtml D P).length ≤ (elementNodes D).length := by
  refine ⟨getElementsFromHtml_node D P, ?_, ?_, ?_, ?_⟩
  · cases contribution P D <;> simp
  · intro v
    unfold contribution
    by_cases h : D.NodeTy = NodeType.ElementNode
    · simp only [h, if_true, true_and, Option.map_eq_some']
      constructor
      · rintro ⟨a, ha, rfl⟩
        obtain ⟨hPa, before, after, hsplit, hb⟩ := List.find?_eq_some.1 ha
        exact ⟨before, a, after, hsplit, fun b hb' => by simpa using hb b hb', hPa, rfl⟩
      · rintro ⟨before, a, after, hsplit, hb, hPa, rfl⟩
        exact ⟨a, List.find?_eq_some.2
          ⟨hPa, before, after, hsplit, fun b hb' => by simp [hb b hb']⟩, rfl⟩
    · simp [h]
  · intro h
    simp [contribution, h]
  · rw [getElementsFromHtml_eq_filterMap, elementNodes]
    generalize preorder D = l
    induction l with
    | nil => simp
    | cons n l ih =>
      by_cases h : n.NodeTy = NodeType.ElementNode
      · cases hc : contribution P n
        · simp [List.filterMap_cons, hc, List.filter_cons, h]; omega
        · simp [List.filterMap_cons, hc, List.filter_cons, h]; omega
      · simpa [List.filterMap_cons, contribution, List.filter_cons, h] using ih

/-- C5: on a document whose elements have at most one `href` attribute each,
`getSubURLsFromHtml D url` is the list of hyperlink targets of `D`, in document
order, that contain `url` and do not contain `?`; every value returned is the
value of an attribute with key `href`. -/
theorem getSubURLsFromHtml_spec (D : Node) (url : String)
    (h1 : ∀ n ∈ elementNodes D, (n.Attr.filter isHref).length ≤ 1) :
    getSubURLsFromHtml D url
      = (hrefs D).filter (fun v => Contains v url && !Contains v "?") ∧
    ∀ v ∈ getSubURLsFromHtml D url,
      ∃ a ∈ elementAttrs D, a.Key = "href" ∧ a.Val = v := by
  refine ⟨getSubURLsFromHtml_eq D url h1, fun v hv => ?_⟩
  obtain ⟨a, ha, hP, hv⟩ := mem_getElementsFromHtml hv
  refine ⟨a, ha, ?_, hv⟩
  simp only [Bool.and_eq_true, beq_iff_eq] at hP
  exact hP.1.1

/-- C5 at the example of the doc comment of `getSubURLsFromHtml`: searching a
document whose links are `/a/b` and `/a/c` for `/a` returns both. -/
theorem getSubURLsFromHtml_spec_witness :
    (∀ n ∈ elementNodes (listing ["/a/b", "/a/c"]), (n.Attr.filter isHref).length ≤ 1) ∧
    getSubURLsFromHtml (listing ["/a/b", "/a/c"]) "/a" = ["/a/b", "/a/c"] :=
  ⟨by decide, ((getSubURLsFromHtml_spec (listing ["/a/b", "/a/c"]) "/a" (by decide)).1).trans
    (by decide)⟩

/-- C6, as the code has it: for a listing whose hyperlinks are, in order,
`/logs/run1/`, `/logs/serial-1.log?foo=1`, `/logs/run2/serial-1.log`, crawled
at `/logs/` for `serial-1.log`, the sub-directory links are `/logs/run1/` and
`/logs/run2/serial-1.log`, and the file-link candidates are
`/logs/run2/serial-1.log`. -/
theorem scenario_links (D : Node)
    (h1 : ∀ n ∈ elementNodes D, (n.Attr.filter isHref).length ≤ 1)
    (h : hrefs D = ["/logs/run1/", "/logs/serial-1.log?foo=1", "/logs/run2/serial-1.log"]) :
    getSubURLsFromHtml D "/logs/" = ["/logs/run1/", "/logs/run2/serial-1.log"] ∧
    getFilesFromHtml D "serial-1.log" = ["/logs/run2/serial-1.log"] := by
  rw [getSubURLsFromHtml_eq D _ h1, getFilesFromHtml_eq D _ h1, h]
  decide

/-- C6 amended, at the listing page of the scenario. -/
theorem scenario_links_witness :
    (∀ n ∈ elementNodes scenarioListing, (n.Attr.filter isHref).length ≤ 1) ∧
    hrefs scenarioListing
      = ["/logs/run1/", "/logs/serial-1.log?foo=1", "/logs/run2/serial-1.log"] ∧
    getSubURLsFromHtml scenarioListing "/logs/" = ["/logs/run1/", "/logs/run2/serial-1.log"] ∧
    getFilesFromHtml scenarioListing "serial-1.log" = ["/logs/run2/serial-1.log"] :=
  ⟨by decide, by decide, scenario_links scenarioListing (by decide) (by decide)⟩

/-- C6 as stated fails on the listing page of the scenario: the link
`/logs/run2/serial-1.log` ends with the file name, so it is a file-link
candidate, and it contains `/logs/` and no `?`, so it is returned whole as a
sub-directory link. -/
theorem scenario_links_not_as_stated :
    ¬ (getSubURLsFromHtml scenarioListing "/logs/" = ["/logs/run1/", "/logs/run2/"] ∧
       getFilesFromHtml scenarioListing "serial-1.log" = []) := by
  decide

/-! ## The crawl: unfolding `findFiles` -/

theorem findFiles_htmlError (net : Fetchers) (fuel : Nat) (url fileName textPattern err : String)
    (h : net.getUrlHtml (gcsUrl ++ url) = .error err) :
    findFiles net (fuel + 1) url fileName textPattern
      = ⟨[.getHtml (gcsUrl ++ url), .htmlError err], true⟩ := by
  simp only [findFiles, h]

theorem findFiles_file (net : Fetchers) (fuel : Nat) (url fileName textPattern : String)
    (doc : Node) (file : String) (rest : List String)
    (h : net.getUrlHtml (gcsUrl ++ url) = .ok doc)
    (hf : getFilesFromHtml doc fileName = file :: rest) :
    findFiles net (fuel + 1) url fileName textPattern
      = match net.getUrlText file with
        | .error err => ⟨[.getHtml (gcsUrl ++ url), .getText file, .textError err], true⟩
        | .ok text =>
          if Contains text textPattern then
            ⟨[.getHtml (gcsUrl ++ url), .getText file, .println file], true⟩
          else ⟨[.getHtml (gcsUrl ++ url), .getText file], true⟩ := by
  simp only [findFiles, h, hf]

theorem findFiles_noFile (net : Fetchers) (fuel : Nat) (url fileName textPattern : String)
    (doc : Node) (h : net.getUrlHtml (gcsUrl ++ url) = .ok doc)
    (hf : getFilesFromHtml doc fileName = []) :
    findFiles net (fuel + 1) url fileName textPattern
      = ⟨.getHtml (gcsUrl ++ url)
          :: (subDirLoop (fun subDir => findFiles net fuel subDir fileName textPattern)
                (getSubURLsFromHtml doc url)).trace,
         (subDirLoop (fun subDir => findFiles net fuel subDir fileName textPattern)
            (getSubURLsFromHtml doc url)).returned⟩ := by
  simp only [findFiles, h, hf]

theorem subDirLoop_cons_returned (call : String → Run) (subDir : String) (rest : List String)
    (h : (call subDir).returned = true) :
    subDirLoop call (subDir :: rest)
      = ⟨(call subDir).trace ++ (subDirLoop call rest).trace,
         (subDirLoop call rest).returned⟩ := by
  simp [subDirLoop, h]

/-- An event of the loop over the sub-directories is an event of one of the
calls, and the whole of that call's trace is in the loop's trace. -/
theorem mem_subDirLoop_trace {call : String → Run} {l : List String} {e : Event}
    (he : e ∈ (subDirLoop call l).trace) :
    ∃ s ∈ l, e ∈ (call s).trace ∧ (call s).trace ⊆ (subDirLoop call l).trace := by
  induction l with
  | nil => simp [subDirLoop] at he
  | cons s rest ih =>
    by_cases hr : (call s).returned = true
    · rw [subDirLoop_cons_returned call s rest hr] at he ⊢
      rcases List.mem_append.1 he with h | h
      · exact ⟨s, List.mem_cons_self _ _, h, List.subset_append_left _ _⟩
      · obtain ⟨t, ht, het, hsub⟩ := ih h
        exact ⟨t, List.mem_cons_of_mem _ ht, het,
          hsub.trans (List.subset_append_right _ _)⟩
    · have : subDirLoop call (s :: rest) = call s := by simp [subDirLoop, hr]
      rw [this] at he ⊢
      exact ⟨s, List.mem_cons_self _ _, he, List.Subset.refl _⟩

/-- A value returned for an `href` filter is a hyperlink target of the document. -/
theorem mem_hrefs_of_mem_getFilesFromHtml {doc : Node} {fileName L : String}
    (h : L ∈ getFilesFromHtml doc fileName) :
    L ∈ hrefs doc ∧ HasSuffix L fileName = true := by
  obtain ⟨a, ha, hP, rfl⟩ := mem_getElementsFromHtml h
  simp only [Bool.and_eq_true] at hP
  refine ⟨?_, hP.2⟩
  exact List.mem_map.2 ⟨a, List.mem_filter.2 ⟨ha, hP.1⟩, rfl⟩

/-! ## The crawl: the loop over the sub-directories -/

/-- The loop over the sub-directories runs the calls of a returning stretch
`pre` one after the other and goes on with the links after it. -/
theorem subDirLoop_append (call : String → Run) (pre rest : List String)
    (hpre : ∀ t ∈ pre, (call t).returned = true) :
    subDirLoop call (pre ++ rest)
      = ⟨pre.flatMap (fun t => (call t).trace) ++ (subDirLoop call rest).trace,
         (subDirLoop call rest).returned⟩ := by
  induction pre with
  | nil => simp
  | cons t pre ih =>
    rw [List.cons_append, subDirLoop_cons_returned call t _ (hpre t (List.mem_cons_self _ _)),
      ih fun u hu => hpre u (List.mem_cons_of_mem _ hu)]
    simp [List.flatMap_cons]

theorem subDirLoop_all_returned (call : String → Run) (l : List String)
    (hall : ∀ t ∈ l, (call t).returned = true) :
    subDirLoop call l = ⟨l.flatMap (fun t => (call t).trace), true⟩ := by
  have := subDirLoop_append call l [] hall
  simpa [subDirLoop] using this

theorem subDirLoop_stops (call : String → Run) (pre : List String) (s : String)
    (post : List String) (hpre : ∀ t ∈ pre, (call t).returned = true)
    (hs : (call s).returned = false) :
    subDirLoop call (pre ++ s :: post)
      = ⟨pre.flatMap (fun t => (call t).trace) ++ (call s).trace, false⟩ := by
  have hcall : subDirLoop call (s :: post) = call s := by simp [subDirLoop, hs]
  rw [subDirLoop_append call pre (s :: post) hpre, hcall, hs]

/-- A call of `findFiles` with fuel left starts by fetching its listing. -/
theorem findFiles_trace_head (net : Fetchers) (fuel : Nat) (url fileName textPattern : String) :
    ∃ rest, (findFiles net (fuel + 1) url fileName textPattern).trace
      = .getHtml (gcsUrl ++ url) :: rest := by
  cases hdoc : net.getUrlHtml (gcsUrl ++ url) with
  | error err =>
    exact ⟨_, by rw [findFiles_htmlError net fuel url fileName textPattern err hdoc]⟩
  | ok doc =>
    cases hfiles : getFilesFromHtml doc fileName with
    | cons file rest =>
      rw [findFiles_file net fuel url fileName textPattern doc file rest hdoc hfiles]
      cases net.getUrlText file with
      | error err => exact ⟨_, rfl⟩
      | ok text =>
        by_cases hc : Contains text textPattern = true
        · exact ⟨[.getText file, .println file], by simp [hc]⟩
        · exact ⟨[.getText file], by simp [hc]⟩
    | nil =>
      exact ⟨_, by rw [findFiles_noFile net fuel url fileName textPattern doc hdoc hfiles]⟩

/-! ## The crawl: returning -/

theorem subDirLoop_returned (call : String → Run) (l : List String) :
    (subDirLoop call l).returned = true ↔ ∀ s ∈ l, (call s).returned = true := by
  induction l with
  | nil => simp [subDirLoop]
  | cons s rest ih =>
    by_cases hr : (call s).returned = true
    · rw [subDirLoop_cons_returned call s rest hr]
      simp [ih, hr]
    · have : subDirLoop call (s :: rest) = call s := by simp [subDirLoop, hr]
      rw [this]
      simp [hr]

theorem subDirLoop_congr {f g : String → Run} {l : List String}
    (h : ∀ s ∈ l, f s = g s) : subDirLoop f l = subDirLoop g l := by
  induction l with
  | nil => rfl
  | cons s rest ih =>
    simp only [subDirLoop, h s (List.mem_cons_self _ _),
      ih fun t ht => h t (List.mem_cons_of_mem _ ht)]

/-- A run that returned is the run at any larger fuel: fuel only bounds the
depth of the recursion. -/
theorem findFiles_succ_of_returned (net : Fetchers) (fileName textPattern : String) :
    ∀ (fuel : Nat) (url : String),
      (findFiles net fuel url fileName textPattern).returned = true →
      findFiles net (fuel + 1) url fileName textPattern
        = findFiles net fuel url fileName textPattern
  | 0, url => by simp [findFiles]
  | fuel + 1, url => by
    intro hret
    cases hdoc : net.getUrlHtml (gcsUrl ++ url) with
    | error err =>
      rw [findFiles_htmlError net (fuel + 1) url fileName textPattern err hdoc,
        findFiles_htmlError net fuel url fileName textPattern err hdoc]
    | ok doc =>
      cases hfiles : getFilesFromHtml doc fileName with
      | cons file rest =>
        rw [findFiles_file net (fuel + 1) url fileName textPattern doc file rest hdoc hfiles,
          findFiles_file net fuel url fileName textPattern doc file rest hdoc hfiles]
      | nil =>
        rw [findFiles_noFile net fuel url fileName textPattern doc hdoc hfiles] at hret
        rw [findFiles_noFile net (fuel + 1) url fileName textPattern doc hdoc hfiles,
          findFiles_noFile net fuel url fileName textPattern doc hdoc hfiles]
        have hall := (subDirLoop_returned _ _).1 hret
        rw [subDirLoop_congr fun s hs =>
          findFiles_succ_of_returned net fileName textPattern fuel s (hall s hs)]

theorem findFiles_stable (net : Fetchers) (fileName textPattern url : String) (k : Nat)
    (hret : (findFiles net k url fileName textPattern).returned = true) (n : Nat) (hn : k ≤ n) :
    findFiles net n url fileName textPattern = findFiles net k url fileName textPattern := by
  induction n, hn using Nat.le_induction with
  | base => rfl
  | succ n _ ih =>
    rw [findFiles_succ_of_returned net fileName textPattern n url (by rw [ih]; exact hret), ih]

/-- A listing without file-link candidates that links to its own location: the
crawl of that location never returns. -/
theorem findFiles_self_link (net : Fetchers) (url fileName textPattern : String) (doc : Node)
    (hdoc : net.getUrlHtml (gcsUrl ++ url) = .ok doc)
    (hfiles : getFilesFromHtml doc fileName = [])
    (hself : url ∈ getSubURLsFromHtml doc url) :
    ∀ fuel, (findFiles net fuel url fileName textPattern).returned = false
  | 0 => rfl
  | fuel + 1 => by
    rw [findFiles_noFile net fuel url fileName textPattern doc hdoc hfiles]
    have ih := findFiles_self_link net url fileName textPattern doc hdoc hfiles hself fuel
    cases hr : (subDirLoop (fun subDir => findFiles net fuel subDir fileName textPattern)
        (getSubURLsFromHtml doc url)).returned with
    | false => rfl
    | true =>
      have := (subDirLoop_returned _ _).1 hr url hself
      simp [ih] at this

/-- Where the sub-directory link relation has no infinite path from `url`, the
crawl of `url` returns, at every fuel from some bound on. -/
theorem findFiles_returns_of_acc (net : Fetchers) (fileName textPattern url : String)
    (h : Acc (fun v u => subDirLink net u v) url) :
    ∃ k, ∀ n, k ≤ n → (findFiles net n url fileName textPattern).returned = true := by
  induction h with
  | intro url _ ih =>
    cases hdoc : net.getUrlHtml (gcsUrl ++ url) with
    | error err =>
      refine ⟨1, fun n hn => ?_⟩
      obtain ⟨m, rfl⟩ : ∃ m, n = m + 1 := ⟨n - 1, by omega⟩
      rw [findFiles_htmlError net m url fileName textPattern err hdoc]
    | ok doc =>
      cases hfiles : getFilesFromHtml doc fileName with
      | cons file rest =>
        refine ⟨1, fun n hn => ?_⟩
        obtain ⟨m, rfl⟩ : ∃ m, n = m + 1 := ⟨n - 1, by omega⟩
        rw [findFiles_file net m url fileName textPattern doc file rest hdoc hfiles]
        cases net.getUrlText file with
        | error err => rfl
        | ok text => by_cases hc : Contains text textPattern = true <;> simp [hc]
      | nil =>
        have bound : ∀ l : List String, (∀ s ∈ l, subDirLink net url s) →
            ∃ k, ∀ n, k ≤ n → ∀ s ∈ l,
              (findFiles net n s fileName textPattern).returned = true := by
          intro l
          induction l with
          | nil => exact fun _ => ⟨0, by simp⟩
          | cons a l ihl =>
            intro hl
            obtain ⟨k1, hk1⟩ := ih a (hl a (List.mem_cons_self _ _))
            obtain ⟨k2, hk2⟩ := ihl fun s hs => hl s (List.mem_cons_of_mem _ hs)
            refine ⟨max k1 k2, fun n hn s hs => ?_⟩
            rcases List.mem_cons.1 hs with rfl | hs
            · exact hk1 n (le_of_max_le_left hn)
            · exact hk2 n (le_of_max_le_right hn) s hs
        obtain ⟨k, hk⟩ := bound _ fun s hs => ⟨doc, hdoc, hs⟩
        refine ⟨k + 1, fun n hn => ?_⟩
        obtain ⟨m, rfl⟩ : ∃ m, n = m + 1 := ⟨n - 1, by omega⟩
        rw [findFiles_noFile net m url fileName textPattern doc hdoc hfiles]
        exact (subDirLoop_returned _ _).2 fun s hs => hk m (by omega) s hs

/-- A relation whose part reachable from `root` is finite and acyclic has no
infinite path from `root`. -/
theorem acc_of_finite_acyclic {α : Type} (R : α → α → Prop) (root : α)
    (hfin : Set.Finite {v | Relation.ReflTransGen R root v})
    (hacyc : ∀ v, Relation.ReflTransGen R root v → ¬ Relation.TransGen R v v) :
    Acc (fun v u => R u v) root := by
  let r : {v // Relation.ReflTransGen R root v} → {v // Relation.ReflTransGen R root v} → Prop :=
    fun a b => Relation.TransGen R b.1 a.1
  haveI : Finite {v // Relation.ReflTransGen R root v} := hfin.to_subtype
  haveI : IsTrans _ r := ⟨fun a b c hab hbc => Relation.TransGen.trans hbc hab⟩
  haveI : IsIrrefl _ r := ⟨fun a => hacyc a.1 a.2⟩
  have wf : WellFounded r := Finite.wellFounded_of_trans_of_irrefl r
  have key : ∀ t : {v // Relation.ReflTransGen R root v}, Acc (fun v u => R u v) t.1 := by
    intro t
    induction t using wf.induction with
    | _ t ih =>
      exact Acc.intro _ fun v hv => ih ⟨v, t.2.tail hv⟩ (Relation.TransGen.single hv)
  exact key ⟨root, Relation.ReflTransGen.refl⟩

theorem append_left_cancel_string {a b c : String} (h : a ++ b = a ++ c) : b = c := by
  have hd := congrArg String.data h
  simp only [String.data_append] at hd
  exact String.ext (List.append_cancel_left hd)

/-- The sub-directory links of `scenarioNet`: only `/logs/` has a listing, and
it links to `/logs/run1/` and `/logs/run2/serial-1.log`. -/
theorem subDirLink_scenarioNet {u v : String} (h : subDirLink scenarioNet u v) :
    u = "/logs/" ∧ v ∈ ["/logs/run1/", "/logs/run2/serial-1.log"] := by
  obtain ⟨doc, hdoc, hv⟩ := h
  simp only [scenarioNet] at hdoc
  split at hdoc
  · rename_i hu
    have hu' : u = "/logs/" := append_left_cancel_string hu
    injection hdoc with hdoc
    subst hdoc hu'
    have hl : getSubURLsFromHtml scenarioListing "/logs/"
        = ["/logs/run1/", "/logs/run2/serial-1.log"] := by decide
    rw [hl] at hv
    exact ⟨rfl, hv⟩
  · cases hdoc

theorem reachable_scenarioNet {v : String}
    (h : Relation.ReflTransGen (subDirLink scenarioNet) "/logs/" v) :
    v ∈ ["/logs/", "/logs/run1/", "/logs/run2/serial-1.log"] := by
  induction h with
  | refl => simp
  | tail _ hstep _ => exact List.mem_cons_of_mem _ (subDirLink_scenarioNet hstep).2

/-! ## The crawl: the claims -/

/-- C1: soundness of the crawl output.  Whatever the fetchers do and however
far the crawl has run, a location `L` printed as a match is a hyperlink target
of a listing document fetched during the crawl, it ends with `fileName`, and
the crawl fetched its text, which contains `textPattern`. -/
theorem findFiles_sound (net : Fetchers) (fuel : Nat) (url fileName textPattern L : String)
    (h : Event.println L ∈ (findFiles net fuel url fileName textPattern).trace) :
    (∃ u doc, Event.getHtml (gcsUrl ++ u) ∈ (findFiles net fuel url fileName textPattern).trace ∧
        net.getUrlHtml (gcsUrl ++ u) = .ok doc ∧ L ∈ hrefs doc) ∧
    HasSuffix L fileName = true ∧
    Event.getText L ∈ (findFiles net fuel url fileName textPattern).trace ∧
    ∃ text, net.getUrlText L = .ok text ∧ Contains text textPattern = true := by
  induction fuel generalizing url with
  | zero => simp [findFiles] at h
  | succ fuel ih =>
    cases hdoc : net.getUrlHtml (gcsUrl ++ url) with
    | error err =>
      rw [findFiles_htmlError net fuel url fileName textPattern err hdoc] at h
      simp at h
    | ok doc =>
      cases hfiles : getFilesFromHtml doc fileName with
      | cons file rest =>
        have hmem : file ∈ getFilesFromHtml doc fileName := by simp [hfiles]
        obtain ⟨hhref, hsuf⟩ := mem_hrefs_of_mem_getFilesFromHtml hmem
        rw [findFiles_file net fuel url fileName textPattern doc file rest hdoc hfiles] at h ⊢
        cases htext : net.getUrlText file with
        | error err => simp [htext] at h
        | ok text =>
          by_cases hc : Contains text textPattern = true
          · simp only [htext, hc, if_true] at h ⊢
            have hL : L = file := by simpa using h
            subst hL
            exact ⟨⟨url, doc, by simp, hdoc, hhref⟩, hsuf, by simp, text, htext, hc⟩
          · simp [htext, hc] at h
      | nil =>
        rw [findFiles_noFile net fuel url fileName textPattern doc hdoc hfiles] at h ⊢
        simp only [List.mem_cons, reduceCtorEq, false_or] at h
        obtain ⟨s, -, hs, hsub⟩ := mem_subDirLoop_trace h
        obtain ⟨⟨u, d, hu, hd, hLd⟩, hsuf, hget, htext⟩ := ih s hs
        exact ⟨⟨u, d, List.mem_cons_of_mem _ (hsub hu), hd, hLd⟩, hsuf,
          List.mem_cons_of_mem _ (hsub hget), htext⟩

/-- C1 on the network of the scenario: the crawl of `/logs/` prints
`/logs/run2/serial-1.log`. -/
theorem findFiles_sound_witness :
    Event.println "/logs/run2/serial-1.log"
      ∈ (findFiles scenarioNet 1 "/logs/" "serial-1.log" "BUG").trace ∧
    HasSuffix "/logs/run2/serial-1.log" "serial-1.log" = true ∧
    ∃ text, scenarioNet.getUrlText "/logs/run2/serial-1.log" = .ok text ∧
      Contains text "BUG" = true :=
  ⟨by decide,
   (findFiles_sound scenarioNet 1 "/logs/" "serial-1.log" "BUG" "/logs/run2/serial-1.log"
      (by decide)).2.1,
   (findFiles_sound scenarioNet 1 "/logs/" "serial-1.log" "BUG" "/logs/run2/serial-1.log"
      (by decide)).2.2.2⟩

/-- C7: a listing fetch that fails aborts only that subtree.  When
`getUrlHtml(gcsUrl + url)` fails, `findFiles(url, ...)` fetches that listing,
reports the error once, does nothing else and returns; a loop over sibling
sub-directories that starts with `url` goes on with the siblings after it. -/
theorem findFiles_listing_failure (net : Fetchers) (fuel : Nat)
    (url fileName textPattern err : String)
    (h : net.getUrlHtml (gcsUrl ++ url) = .error err) :
    findFiles net (fuel + 1) url fileName textPattern
      = ⟨[.getHtml (gcsUrl ++ url), .htmlError err], true⟩ ∧
    ∀ siblings : List String,
      subDirLoop (fun subDir => findFiles net (fuel + 1) subDir fileName textPattern)
          (url :: siblings)
        = ⟨[.getHtml (gcsUrl ++ url), .htmlError err]
            ++ (subDirLoop (fun subDir => findFiles net (fuel + 1) subDir fileName textPattern)
                  siblings).trace,
           (subDirLoop (fun subDir => findFiles net (fuel + 1) subDir fileName textPattern)
              siblings).returned⟩ := by
  have h1 := findFiles_htmlError net fuel url fileName textPattern err h
  refine ⟨h1, fun siblings => ?_⟩
  rw [subDirLoop_cons_returned _ _ _ (by simp [h1])]
  simp [h1]

/-- C7 on a network that is down: one fetch, one error, and the call returns. -/
theorem findFiles_listing_failure_witness :
    downNet.getUrlHtml (gcsUrl ++ "/logs/") = .error "connection refused" ∧
    findFiles downNet 1 "/logs/" "serial-1.log" "BUG"
      = ⟨[.getHtml "http://gcsweb.k8s.io//logs/", .htmlError "connection refused"], true⟩ :=
  ⟨rfl, (findFiles_listing_failure downNet 0 "/logs/" "serial-1.log" "BUG"
    "connection refused" rfl).1⟩

/-- C9: the early exit of the crawl.  When the listing fetched for `url` has
a file-link candidate, `findFiles` fetches the text of the first candidate,
prints it exactly when the fetch succeeds and the text contains
`textPattern`, and returns: no other candidate is fetched and no listing
other than that of `url` is fetched, so no sub-directory is entered.  When the
listing has no candidate, the sub-directory links are entered in document
order: the run is the listing fetch followed by the runs of `findFiles` on
each link, up to and including the first one that does not return, and each
link reached this way has its listing fetched. -/
theorem findFiles_early_exit (net : Fetchers) (fuel : Nat) (url fileName textPattern : String)
    (doc : Node) (hdoc : net.getUrlHtml (gcsUrl ++ url) = .ok doc) :
    (∀ file rest, getFilesFromHtml doc fileName = file :: rest →
      (∀ err, net.getUrlText file = .error err →
        findFiles net (fuel + 1) url fileName textPattern
          = ⟨[.getHtml (gcsUrl ++ url), .getText file, .textError err], true⟩) ∧
      (∀ text, net.getUrlText file = .ok text → Contains text textPattern = true →
        findFiles net (fuel + 1) url fileName textPattern
          = ⟨[.getHtml (gcsUrl ++ url), .getText file, .println file], true⟩) ∧
      (∀ text, net.getUrlText file = .ok text → Contains text textPattern = false →
        findFiles net (fuel + 1) url fileName textPattern
          = ⟨[.getHtml (gcsUrl ++ url), .getText file], true⟩) ∧
      (∀ u, Event.getHtml u
        ∉ (findFiles net (fuel + 1) url fileName textPattern).trace.tail)) ∧
    (getFilesFromHtml doc fileName = [] →
      ((∀ s ∈ getSubURLsFromHtml doc url,
          (findFiles net fuel s fileName textPattern).returned = true) →
        findFiles net (fuel + 1) url fileName textPattern
          = ⟨.getHtml (gcsUrl ++ url)
              :: (getSubURLsFromHtml doc url).flatMap
                  (fun s => (findFiles net fuel s fileName textPattern).trace),
             true⟩) ∧
      (∀ pre s post, getSubURLsFromHtml doc url = pre ++ s :: post →
        (∀ t ∈ pre, (findFiles net fuel t fileName textPattern).returned = true) →
        (findFiles net fuel s fileName textPattern).returned = false →
        findFiles net (fuel + 1) url fileName textPattern
          = ⟨.getHtml (gcsUrl ++ url)
              :: (pre.flatMap (fun t => (findFiles net fuel t fileName textPattern).trace)
                  ++ (findFiles net fuel s fileName textPattern).trace),
             false⟩) ∧
      (∀ pre s post, getSubURLsFromHtml doc url = pre ++ s :: post →
        (∀ t ∈ pre, (findFiles net (fuel + 1) t fileName textPattern).returned = true) →
        Event.getHtml (gcsUrl ++ s)
          ∈ (findFiles net (fuel + 2) url fileName textPattern).trace.tail)) := by
  refine ⟨fun file rest hf => ⟨fun err he => ?_, fun text ht hc => ?_, fun text ht hc => ?_,
    fun u => ?_⟩, fun hf => ⟨fun hall => ?_, fun pre s post hl hpre hs => ?_,
    fun pre s post hl hpre => ?_⟩⟩
  · rw [findFiles_file net fuel url fileName textPattern doc file rest hdoc hf, he]
  · rw [findFiles_file net fuel url fileName textPattern doc file rest hdoc hf, ht]
    simp [hc]
  · rw [findFiles_file net fuel url fileName textPattern doc file rest hdoc hf, ht]
    simp [hc]
  · rw [findFiles_file net fuel url fileName textPattern doc file rest hdoc hf]
    cases net.getUrlText file with
    | error err => simp
    | ok text => by_cases hc : Contains text textPattern = true <;> simp [hc]
  · rw [findFiles_noFile net fuel url fileName textPattern doc hdoc hf,
      subDirLoop_all_returned _ _ hall]
  · rw [findFiles_noFile net fuel url fileName textPattern doc hdoc hf, hl,
      subDirLoop_stops _ pre s post hpre hs]
  · rw [findFiles_noFile net (fuel + 1) url fileName textPattern doc hdoc hf, hl,
      subDirLoop_append _ pre (s :: post) hpre]
    obtain ⟨rest, hrest⟩ := findFiles_trace_head net fuel s fileName textPattern
    have hmem : Event.getHtml (gcsUrl ++ s)
        ∈ (subDirLoop (fun subDir => findFiles net (fuel + 1) subDir fileName textPattern)
            (s :: post)).trace := by
      by_cases hr : (findFiles net (fuel + 1) s fileName textPattern).returned = true
      · rw [subDirLoop_cons_returned _ s post hr]
        simp [hrest]
      · have : subDirLoop (fun subDir => findFiles net (fuel + 1) subDir fileName textPattern)
            (s :: post) = findFiles net (fuel + 1) s fileName textPattern := by
          simp [subDirLoop, hr]
        rw [this, hrest]
        exact List.mem_cons_self _ _
    exact List.mem_append_right _ hmem

/-- C9 on two listing services.  On `twoFilesNet` the listing of `/d/` has two
candidates and a sub-directory, and the crawl of `/d/` is the listing fetch,
the fetch of the first candidate and its match.  On `treeNet` the listing of
`/t/` has no candidate and the sub-directories `/t/a/` and `/t/b/`, and the
crawl of `/t/` enters both, in that order. -/
theorem findFiles_early_exit_witness :
    (twoFilesNet.getUrlHtml (gcsUrl ++ "/d/") = .ok rootListing ∧
    getFilesFromHtml rootListing "serial-1.log"
      = ["/d/serial-1.log", "/d/copy/serial-1.log"] ∧
    findFiles twoFilesNet 3 "/d/" "serial-1.log" "BUG"
      = ⟨[.getHtml (gcsUrl ++ "/d/"), .getText "/d/serial-1.log",
          .println "/d/serial-1.log"], true⟩) ∧
    (treeNet.getUrlHtml (gcsUrl ++ "/t/") = .ok (listing ["/t/a/", "/t/b/"]) ∧
    getFilesFromHtml (listing ["/t/a/", "/t/b/"]) "serial-1.log" = [] ∧
    getSubURLsFromHtml (listing ["/t/a/", "/t/b/"]) "/t/" = ["/t/a/", "/t/b/"] ∧
    findFiles treeNet 2 "/t/" "serial-1.log" "BUG"
      = ⟨[.getHtml "http://gcsweb.k8s.io//t/",
          .getHtml "http://gcsweb.k8s.io//t/a/", .getText "/t/a/serial-1.log",
          .println "/t/a/serial-1.log",
          .getHtml "http://gcsweb.k8s.io//t/b/", .htmlError "404 Not Found"], true⟩) :=
  ⟨⟨rfl, by decide,
    ((findFiles_early_exit twoFilesNet 2 "/d/" "serial-1.log" "BUG" rootListing rfl).1
      "/d/serial-1.log" ["/d/copy/serial-1.log"] (by decide)).2.1
      "watchdog: BUG: soft lockup - CPU#0" rfl (by decide)⟩,
   ⟨rfl, by decide, by decide,
    ((((findFiles_early_exit treeNet 1 "/t/" "serial-1.log" "BUG"
        (listing ["/t/a/", "/t/b/"]) rfl).2 (by decide)).1 (by decide)).trans (by decide))⟩⟩

/-- C2 fails on the code: on `twoFilesNet` the crawl of `/d/` returns after
the first candidate, whatever the fuel.  The second candidate of the listing
and the file of the sub-directory `/d/sub/` both end with the file name and
hold the pattern, and neither is printed. -/
theorem findFiles_misses_matches (fuel : Nat) :
    findFiles twoFilesNet (fuel + 1) "/d/" "serial-1.log" "BUG"
      = ⟨[.getHtml "http://gcsweb.k8s.io//d/", .getText "/d/serial-1.log",
          .println "/d/serial-1.log"], true⟩ ∧
    printed (findFiles twoFilesNet (fuel + 1) "/d/" "serial-1.log" "BUG").trace
      = ["/d/serial-1.log"] ∧
    ("/d/copy/serial-1.log" ∈ hrefs rootListing ∧
      HasSuffix "/d/copy/serial-1.log" "serial-1.log" = true ∧
      twoFilesNet.getUrlText "/d/copy/serial-1.log"
        = .ok "watchdog: BUG: soft lockup - CPU#0" ∧
      Contains "watchdog: BUG: soft lockup - CPU#0" "BUG" = true) ∧
    ("/d/sub/" ∈ getSubURLsFromHtml rootListing "/d/" ∧
      twoFilesNet.getUrlHtml (gcsUrl ++ "/d/sub/") = .ok (listing ["/d/sub/serial-1.log"]) ∧
      "/d/sub/serial-1.log" ∈ hrefs (listing ["/d/sub/serial-1.log"]) ∧
      HasSuffix "/d/sub/serial-1.log" "serial-1.log" = true ∧
      twoFilesNet.getUrlText "/d/sub/serial-1.log"
        = .ok "watchdog: BUG: soft lockup - CPU#0") := by
  have h := findFiles_file twoFilesNet fuel "/d/" "serial-1.log" "BUG" rootListing
    "/d/serial-1.log" ["/d/copy/serial-1.log"] rfl (by decide)
  have hrun : findFiles twoFilesNet (fuel + 1) "/d/" "serial-1.log" "BUG"
      = ⟨[.getHtml "http://gcsweb.k8s.io//d/", .getText "/d/serial-1.log",
          .println "/d/serial-1.log"], true⟩ := by
    rw [h]
    decide
  rw [hrun]
  exact ⟨rfl, by decide, ⟨by decide, by decide, rfl, by decide⟩,
    by decide, rfl, by decide, by decide, rfl⟩

/-- C8 fails on the code: on `failingFileNet` the fetch of the first candidate
fails, the error is reported, and `findFiles` returns, whatever the fuel.  The
second candidate is not fetched and the sub-directory `/d/sub/` is not
entered, though both hold a match.  On `secondFileFailsNet`, where it is the
second candidate whose fetch fails, that candidate is never fetched, so its
error is never reported. -/
theorem findFiles_stops_after_failed_file (fuel : Nat) :
    (findFiles failingFileNet (fuel + 1) "/d/" "serial-1.log" "BUG"
      = ⟨[.getHtml "http://gcsweb.k8s.io//d/", .getText "/d/serial-1.log",
          .textError "i/o timeout"], true⟩ ∧
    getFilesFromHtml rootListing "serial-1.log"
      = ["/d/serial-1.log", "/d/copy/serial-1.log"] ∧
    getSubURLsFromHtml rootListing "/d/"
      = ["/d/serial-1.log", "/d/copy/serial-1.log", "/d/sub/"] ∧
    Event.getText "/d/copy/serial-1.log"
      ∉ (findFiles failingFileNet (fuel + 1) "/d/" "serial-1.log" "BUG").trace ∧
    Event.getHtml (gcsUrl ++ "/d/sub/")
      ∉ (findFiles failingFileNet (fuel + 1) "/d/" "serial-1.log" "BUG").trace ∧
    printed (findFiles failingFileNet (fuel + 1) "/d/" "serial-1.log" "BUG").trace = []) ∧
    (secondFileFailsNet.getUrlText "/d/copy/serial-1.log" = .error "i/o timeout" ∧
    findFiles secondFileFailsNet (fuel + 1) "/d/" "serial-1.log" "BUG"
      = ⟨[.getHtml "http://gcsweb.k8s.io//d/", .getText "/d/serial-1.log"], true⟩) := by
  have h := findFiles_file failingFileNet fuel "/d/" "serial-1.log" "BUG" rootListing
    "/d/serial-1.log" ["/d/copy/serial-1.log"] rfl (by decide)
  have hrun : findFiles failingFileNet (fuel + 1) "/d/" "serial-1.log" "BUG"
      = ⟨[.getHtml "http://gcsweb.k8s.io//d/", .getText "/d/serial-1.log",
          .textError "i/o timeout"], true⟩ := by
    rw [h]
    decide
  have h2 := findFiles_file secondFileFailsNet fuel "/d/" "serial-1.log" "BUG" rootListing
    "/d/serial-1.log" ["/d/copy/serial-1.log"] rfl (by decide)
  have hrun2 : findFiles secondFileFailsNet (fuel + 1) "/d/" "serial-1.log" "BUG"
      = ⟨[.getHtml "http://gcsweb.k8s.io//d/", .getText "/d/serial-1.log"], true⟩ := by
    rw [h2]
    decide
  rw [hrun]
  exact ⟨⟨rfl, by decide, by decide, by decide, by decide, by decide⟩, rfl, hrun2⟩

/-- C10: no cycle protection.  There is a listing service on which the crawl
never returns, at any fuel: a location without `?` whose listing has no link
ending with the file name and has a link to the location itself.  In general,
a listing without such file links that has its own location among its
sub-directory links makes the crawl of that location run forever, and a link
equal to the location is a sub-directory link when the location has no `?`
(elements having one `href` each).  Conversely, when the locations reachable
from the root through sub-directory links are finitely many and no link path
comes back to where it started, the crawl returns: some fuel lets it return,
and more fuel gives the same run. -/
theorem crawl_cycle_and_termination :
    (∃ (net : Fetchers) (url fileName textPattern : String) (doc : Node),
      Contains url "?" = false ∧ net.getUrlHtml (gcsUrl ++ url) = .ok doc ∧
      (∀ v ∈ hrefs doc, HasSuffix v fileName = false) ∧ url ∈ hrefs doc ∧
      ∀ fuel, (findFiles net fuel url fileName textPattern).returned = false) ∧
    (∀ (net : Fetchers) (url fileName textPattern : String) (doc : Node),
      net.getUrlHtml (gcsUrl ++ url) = .ok doc →
      (∀ v ∈ hrefs doc, HasSuffix v fileName = false) →
      url ∈ getSubURLsFromHtml doc url →
      ∀ fuel, (findFiles net fuel url fileName textPattern).returned = false) ∧
    (∀ (doc : Node) (url : String),
      (∀ n ∈ elementNodes doc, (n.Attr.filter isHref).length ≤ 1) →
      Contains url "?" = false → url ∈ hrefs doc →
      url ∈ getSubURLsFromHtml doc url) ∧
    (∀ (net : Fetchers) (url fileName textPattern : String),
      Set.Finite {v | Relation.ReflTransGen (subDirLink net) url v} →
      (∀ v, Relation.ReflTransGen (subDirLink net) url v →
        ¬ Relation.TransGen (subDirLink net) v v) →
      ∃ k, (findFiles net k url fileName textPattern).returned = true ∧
        ∀ n, k ≤ n →
          findFiles net n url fileName textPattern
            = findFiles net k url fileName textPattern) := by
  have noFiles : ∀ (doc : Node) (fileName : String),
      (∀ v ∈ hrefs doc, HasSuffix v fileName = false) → getFilesFromHtml doc fileName = [] := by
    intro doc fileName hno
    cases hf : getFilesFromHtml doc fileName with
    | nil => rfl
    | cons file rest =>
      have hmem : file ∈ getFilesFromHtml doc fileName := by simp [hf]
      obtain ⟨h1, h2⟩ := mem_hrefs_of_mem_getFilesFromHtml hmem
      simp [hno file h1] at h2
  have general : ∀ (net : Fetchers) (url fileName textPattern : String) (doc : Node),
      net.getUrlHtml (gcsUrl ++ url) = .ok doc →
      (∀ v ∈ hrefs doc, HasSuffix v fileName = false) →
      url ∈ getSubURLsFromHtml doc url →
      ∀ fuel, (findFiles net fuel url fileName textPattern).returned = false :=
    fun net url fileName textPattern doc hdoc hno hself =>
      findFiles_self_link net url fileName textPattern doc hdoc (noFiles doc fileName hno) hself
  have selfLink : ∀ (doc : Node) (url : String),
      (∀ n ∈ elementNodes doc, (n.Attr.filter isHref).length ≤ 1) →
      Contains url "?" = false → url ∈ hrefs doc →
      url ∈ getSubURLsFromHtml doc url := by
    intro doc url h1 hq hmem
    rw [getSubURLsFromHtml_eq doc url h1]
    exact List.mem_filter.2 ⟨hmem, by simp [Contains_self, hq]⟩
  refine ⟨⟨loopNet, "/loop/", "serial-1.log", "BUG", listing ["/loop/"], by decide, rfl,
    by decide, by decide, ?_⟩, general, selfLink, ?_⟩
  · exact general loopNet "/loop/" "serial-1.log" "BUG" (listing ["/loop/"]) rfl (by decide)
      (by decide)
  · intro net url fileName textPattern hfin hacyc
    obtain ⟨k, hk⟩ := findFiles_returns_of_acc net fileName textPattern url
      (acc_of_finite_acyclic (subDirLink net) url hfin hacyc)
    exact ⟨k, hk k le_rfl,
      findFiles_stable net fileName textPattern url k (hk k le_rfl)⟩

/-- C10 at concrete listing services: on `loopNet` the crawl of `/loop/` never
returns; on `scenarioNet` the locations reachable from `/logs/` are finitely
many and without a cycle, and the crawl of `/logs/` returns. -/
theorem crawl_cycle_and_termination_witness :
    (∀ fuel, (findFiles loopNet fuel "/loop/" "serial-1.log" "BUG").returned = false) ∧
    Set.Finite {v | Relation.ReflTransGen (subDirLink scenarioNet) "/logs/" v} ∧
    (∀ v, Relation.ReflTransGen (subDirLink scenarioNet) "/logs/" v →
      ¬ Relation.TransGen (subDirLink scenarioNet) v v) ∧
    ∃ k, (findFiles scenarioNet k "/logs/" "serial-1.log" "BUG").returned = true ∧
      ∀ n, k ≤ n →
        findFiles scenarioNet n "/logs/" "serial-1.log" "BUG"
          = findFiles scenarioNet k "/logs/" "serial-1.log" "BUG" := by
  have hfin : Set.Finite {v | Relation.ReflTransGen (subDirLink scenarioNet) "/logs/" v} :=
    (List.finite_toSet ["/logs/", "/logs/run1/", "/logs/run2/serial-1.log"]).subset
      fun v hv => reachable_scenarioNet hv
  have hacyc : ∀ v, Relation.ReflTransGen (subDirLink scenarioNet) "/logs/" v →
      ¬ Relation.TransGen (subDirLink scenarioNet) v v := by
    intro v _ hcyc
    obtain ⟨a, ha, -⟩ := Relation.TransGen.head'_iff.1 hcyc
    obtain ⟨b, -, hb⟩ := Relation.TransGen.tail'_iff.1 hcyc
    have hv := (subDirLink_scenarioNet ha).1
    have hmem := (subDirLink_scenarioNet hb).2
    rw [hv] at hmem
    revert hmem
    decide
  exact ⟨crawl_cycle_and_termination.2.1 loopNet "/loop/" "serial-1.log" "BUG"
      (listing ["/loop/"]) rfl (by decide) (by decide),
    hfin, hacyc,
    crawl_cycle_and_termination.2.2.2 scenarioNet "/logs/" "serial-1.log" "BUG" hfin hacyc⟩

end GubernatorSearch
